import Mathlib

set_option maxHeartbeats 1000000

/- Shallow embedding of the SQL formatting engine of the
`prettier-sql-extension` repository (`src/index.ts`: `formatSqlString`
together with its keyword tables and option record).

JavaScript strings are modelled as `List Char`.  Every global regex
replace (`String.prototype.replace` with the `g` flag) and every regex
split with a capturing group is modelled by an explicit left-to-right
scan (`scanReplaceF` / `scanSplitF`): at each position the matcher is
tried on the remaining suffix (together with the previous character,
which is what the word-boundary assertion `\b` inspects); on success
the match is consumed and its replacement (resp. the captured group)
emitted, otherwise one character is copied and the scan advances.
Character classes `\s` and `\w` follow the JavaScript definitions;
case mapping is modelled on ASCII letters (the identity elsewhere),
which covers the keyword alphabet the engine manipulates. -/

/-- JavaScript regex `\s` character class, which is also the character
set removed by `String.prototype.trim`. -/
def isJsSpace (c : Char) : Bool :=
  c == ' ' || c == '\t' || c == '\n' || c == '\x0b' || c == '\x0c' || c == '\r' ||
  c == ' ' || c == ' ' ||
  (decide (' ' ≤ c) && decide (c ≤ ' ')) ||
  c == ' ' || c == ' ' || c == ' ' || c == ' ' ||
  c == '　' || c == '﻿'

/-- JavaScript regex `\w` character class (`[A-Za-z0-9_]`), the class
that also determines word boundaries `\b`. -/
def isWordChar (c : Char) : Bool :=
  (decide ('a' ≤ c) && decide (c ≤ 'z')) ||
  (decide ('A' ≤ c) && decide (c ≤ 'Z')) ||
  (decide ('0' ≤ c) && decide (c ≤ '9')) ||
  c == '_'

/-- ASCII case mapping used by `toUpperCase` on the characters the
engine manipulates; other characters are left unchanged. -/
def toUpperAscii (c : Char) : Char :=
  match c with
  | 'a' => 'A' | 'b' => 'B' | 'c' => 'C' | 'd' => 'D' | 'e' => 'E'
  | 'f' => 'F' | 'g' => 'G' | 'h' => 'H' | 'i' => 'I' | 'j' => 'J'
  | 'k' => 'K' | 'l' => 'L' | 'm' => 'M' | 'n' => 'N' | 'o' => 'O'
  | 'p' => 'P' | 'q' => 'Q' | 'r' => 'R' | 's' => 'S' | 't' => 'T'
  | 'u' => 'U' | 'v' => 'V' | 'w' => 'W' | 'x' => 'X' | 'y' => 'Y'
  | 'z' => 'Z'
  | other => other

/-- ASCII case mapping used by `toLowerCase`. -/
def toLowerAscii (c : Char) : Char :=
  match c with
  | 'A' => 'a' | 'B' => 'b' | 'C' => 'c' | 'D' => 'd' | 'E' => 'e'
  | 'F' => 'f' | 'G' => 'g' | 'H' => 'h' | 'I' => 'i' | 'J' => 'j'
  | 'K' => 'k' | 'L' => 'l' | 'M' => 'm' | 'N' => 'n' | 'O' => 'o'
  | 'P' => 'p' | 'Q' => 'q' | 'R' => 'r' | 'S' => 's' | 'T' => 't'
  | 'U' => 'u' | 'V' => 'v' | 'W' => 'w' | 'X' => 'x' | 'Y' => 'y'
  | 'Z' => 'z'
  | other => other

/-- `String.prototype.toUpperCase`. -/
def strUpper (l : List Char) : List Char := l.map toUpperAscii

/-- `String.prototype.toLowerCase`. -/
def strLower (l : List Char) : List Char := l.map toLowerAscii

/-- `String.prototype.trim`. -/
def jsTrim (l : List Char) : List Char :=
  ((l.dropWhile isJsSpace).reverse.dropWhile isJsSpace).reverse

/-- One global left-to-right regex replace pass, with explicit fuel for
structural recursion.  `matcher prev l` inspects the unconsumed suffix
`l` (with `prev` the character just before it, as needed by `\b`) and
returns `some (n, r)` when the regex matches a prefix of length `n`, to
be replaced by `r`.  The fuel never runs out when it starts at the
length of the scanned list, since every match consumes at least one
character (`max n 1`). -/
def scanReplaceF (matcher : Option Char → List Char → Option (Nat × List Char)) :
    Nat → Option Char → List Char → List Char
  | 0, _, l => l
  | _ + 1, _, [] => []
  | fuel + 1, prev, c :: rest =>
    match matcher prev (c :: rest) with
    | some (n, r) =>
        r ++ scanReplaceF matcher fuel (((c :: rest).take (max n 1)).getLast?)
          ((c :: rest).drop (max n 1))
    | none => c :: scanReplaceF matcher fuel (some c) rest

/-- `String.prototype.replace` with a global regex. -/
def scanReplace (matcher : Option Char → List Char → Option (Nat × List Char))
    (prev : Option Char) (l : List Char) : List Char :=
  scanReplaceF matcher l.length prev l

/-- One regex split with a capturing group, with explicit fuel.
`matcher` returns the length of the separator match together with the
text of its capturing group; as in JavaScript's `String.prototype.split`
the captured group is interleaved into the result between the
substrings surrounding the matches. -/
def scanSplitF (matcher : Option Char → List Char → Option (Nat × List Char)) :
    Nat → Option Char → List Char → List Char → List (List Char)
  | 0, _, acc, l => [acc.reverse ++ l]
  | _ + 1, _, acc, [] => [acc.reverse]
  | fuel + 1, prev, acc, c :: rest =>
    match matcher prev (c :: rest) with
    | some (n, cap) =>
        acc.reverse :: cap ::
          scanSplitF matcher fuel (((c :: rest).take (max n 1)).getLast?) []
            ((c :: rest).drop (max n 1))
    | none => scanSplitF matcher fuel (some c) (c :: acc) rest

/-- `String.prototype.split` on a regex with one capturing group. -/
def scanSplit (matcher : Option Char → List Char → Option (Nat × List Char))
    (l : List Char) : List (List Char) :=
  scanSplitF matcher l.length none [] l

/-- Matcher for `/\s+/g` (replacement `' '`): a maximal run of
whitespace characters. -/
def wsRunMatcher (_prev : Option Char) (l : List Char) : Option (Nat × List Char) :=
  match l with
  | c :: _ => if isJsSpace c then some ((l.takeWhile isJsSpace).length, [' ']) else none
  | [] => none

/-- `=`, `<`, `>`, `!`: the `[=<>!]` class of the operator regex. -/
def isOpChar (c : Char) : Bool :=
  c == '=' || c == '<' || c == '>' || c == '!'

/-- Matcher for `/([=<>!]+)/g` with replacement `' $1 '`: a maximal run
of operator characters, re-emitted with one space on each side. -/
def opRunMatcher (_prev : Option Char) (l : List Char) : Option (Nat × List Char) :=
  match l with
  | c :: _ =>
    if isOpChar c then
      some ((l.takeWhile isOpChar).length, ' ' :: l.takeWhile isOpChar ++ [' '])
    else none
  | [] => none

/-- Matcher for `/\s*X\s*/g` for a single punctuation character `X`
(used with `,`, `(` and `)`), replaced by the fixed string `repl`:
optional whitespace, the character, optional whitespace. -/
def wsAroundMatcher (target : Char) (repl : List Char) (_prev : Option Char)
    (l : List Char) : Option (Nat × List Char) :=
  match l.dropWhile isJsSpace with
  | c :: rest2 =>
      if c = target then
        some ((l.takeWhile isJsSpace).length + 1 + (rest2.takeWhile isJsSpace).length, repl)
      else none
  | [] => none

/-- Matcher for `/(\w+)\s*\(/g` with replacement `'$1('`: a word
character run, optional whitespace, an opening parenthesis. -/
def funcCallMatcher (_prev : Option Char) (l : List Char) : Option (Nat × List Char) :=
  if l.takeWhile isWordChar = [] then none
  else
    match (l.dropWhile isWordChar).dropWhile isJsSpace with
    | '(' :: _ =>
        some ((l.takeWhile isWordChar).length +
            ((l.dropWhile isWordChar).takeWhile isJsSpace).length + 1,
          l.takeWhile isWordChar ++ ['('])
    | _ => none

/-- Case-insensitive prefix test: does `l` start with the (uppercase)
pattern `pat`, comparing characters through ASCII uppercasing?  This is
how a case-insensitive regex alternative is tried at a position. -/
def ciStartsWith : List Char → List Char → Bool
  | [], _ => true
  | _ :: _, [] => false
  | p :: ps, c :: cs => toUpperAscii c == p && ciStartsWith ps cs

/-- The `\b` assertion after a match ending in a word character: the
character at offset `n` of `l` must be absent or not a word character. -/
def notWordAt (l : List Char) (n : Nat) : Bool :=
  match l.drop n with
  | [] => true
  | c :: _ => !isWordChar c

/-- Word test for the optional previous character, as used by the `\b`
assertion before a match starting with a word character. -/
def isWordOpt : Option Char → Bool
  | none => false
  | some c => isWordChar c

/-- First keyword of `kws` (in alternation order, as in a JavaScript
regex `(k1|k2|...)`) that matches case-insensitively at the head of `l`
with a word boundary after it. -/
def findKeyword (kws : List String) (l : List Char) : Option (List Char) :=
  match kws with
  | [] => none
  | k :: rest =>
    if ciStartsWith k.data l && notWordAt l k.data.length then some k.data
    else findKeyword rest l

/-- The `SQL_KEYWORDS` table of `src/index.ts` (the `join('|')` of the
source is undone by the `split('|')` inside `formatSqlString`, so the
list itself is the semantic content). -/
def SQL_KEYWORDS : List String :=
  ["SELECT", "FROM", "WHERE", "AND", "OR", "INSERT", "UPDATE", "DELETE",
   "JOIN", "INNER JOIN", "LEFT JOIN", "RIGHT JOIN", "OUTER JOIN",
   "GROUP BY", "ORDER BY", "HAVING", "LIMIT", "OFFSET", "AS",
   "UNION", "ALL", "IN", "BETWEEN", "LIKE", "IS", "NULL",
   "CREATE", "TABLE", "DROP", "ALTER", "INDEX", "PRIMARY KEY",
   "FOREIGN KEY", "CONSTRAINT", "DEFAULT", "CASCADE"]

/-- The keyword list actually used by the case stage: `SQL_KEYWORDS`
extended with `DESC` and `ASC` inside `formatSqlString`. -/
def keywordList : List String := SQL_KEYWORDS ++ ["DESC", "ASC"]

/-- Matcher for the keyword regex `\b(SELECT|FROM|...)\b` with the `gi`
flags; `recase` is the replacement callback applied to the matched
text (`match.toUpperCase()` or `match.toLowerCase()`). -/
def kwMatcher (recase : List Char → List Char) (prev : Option Char)
    (l : List Char) : Option (Nat × List Char) :=
  if isWordOpt prev then none
  else
    match findKeyword keywordList l with
    | some kd => some (kd.length, recase (l.take kd.length))
    | none => none

/-- The option record `SqlFormatterOptions` of `src/index.ts`.  String
options are `Option String` so that absent (`undefined`) and
unrecognized values can both be expressed, as the engine itself only
tests them against string literals and for JavaScript truthiness. -/
structure SqlFormatterOptions where
  keywordCase : Option String := none
  indentStyle : Option String := none
  linesBetweenQueries : Option Int := none
  maxColumnLength : Option Int := none
  commaPosition : Option String := none

/-- The comma replacement chosen by
`options.commaPosition === 'before' ? ' , ' : ', '`. -/
def commaRepl (opts : SqlFormatterOptions) : List Char :=
  if opts.commaPosition = some "before" then " , ".data else ", ".data

/-- Stage rule `replace(/\s+/g, ' ')`. -/
def collapseWhitespace (l : List Char) : List Char :=
  scanReplace wsRunMatcher none l

/-- Stage rule `replace(/([=<>!]+)/g, ' $1 ')`. -/
def spaceOperators (l : List Char) : List Char :=
  scanReplace opRunMatcher none l

/-- Stage rule `replace(/\s*,\s*/g, commaPosition === 'before' ? ' , ' : ', ')`. -/
def normalizeCommas (opts : SqlFormatterOptions) (l : List Char) : List Char :=
  scanReplace (wsAroundMatcher ',' (commaRepl opts)) none l

/-- Stage rule `replace(/\s*\(\s*/g, '(')`. -/
def normalizeOpenParen (l : List Char) : List Char :=
  scanReplace (wsAroundMatcher '(' ['(']) none l

/-- Stage rule `replace(/\s*\)\s*/g, ') ')`. -/
def normalizeCloseParen (l : List Char) : List Char :=
  scanReplace (wsAroundMatcher ')' [')', ' ']) none l

/-- Stage rule `replace(/(\w+)\s*\(/g, '$1(')`. -/
def fixFunctionCalls (l : List Char) : List Char :=
  scanReplace funcCallMatcher none l

/-- The whole normalization prefix of `formatSqlString`: whitespace
collapse and trim, then the chained punctuation replaces, in source
order. -/
def normalizeSql (opts : SqlFormatterOptions) (l : List Char) : List Char :=
  fixFunctionCalls
    (collapseWhitespace
      (normalizeCloseParen
        (normalizeOpenParen
          (normalizeCommas opts
            (spaceOperators
              (jsTrim (collapseWhitespace l)))))))

/-- The keyword case stage: `upper` or a falsy value (absent or the
empty string) uppercases every keyword match, `lower` lowercases it,
anything else leaves the string alone. -/
def applyKeywordCase (kc : Option String) (l : List Char) : List Char :=
  if kc = some "upper" ∨ kc = none ∨ kc = some "" then
    scanReplace (kwMatcher strUpper) none l
  else if kc = some "lower" then
    scanReplace (kwMatcher strLower) none l
  else l

/-- The clause-boundary keywords of the split regex
`/\b(SELECT|FROM|WHERE|GROUP BY|HAVING|ORDER BY|LIMIT)\b/i`, which is
also the list used by the `includes(upperPart)` test of the loop. -/
def MAJOR_KEYWORDS : List String :=
  ["SELECT", "FROM", "WHERE", "GROUP BY", "HAVING", "ORDER BY", "LIMIT"]

/-- Matcher for the major-clause split regex (capturing the matched
keyword text in its original casing). -/
def majorMatcher (prev : Option Char) (l : List Char) : Option (Nat × List Char) :=
  if isWordOpt prev then none
  else
    match findKeyword MAJOR_KEYWORDS l with
    | some kd => some (kd.length, l.take kd.length)
    | none => none

/-- The optional qualifiers of the JOIN split regex
`(?:INNER |LEFT |RIGHT |OUTER )`. -/
def JOIN_QUALIFIERS : List String := ["INNER ", "LEFT ", "RIGHT ", "OUTER "]

/-- First qualifier matching case-insensitively at the head of `l`. -/
def findQualifier (qs : List String) (l : List Char) : Option (List Char) :=
  match qs with
  | [] => none
  | q :: rest => if ciStartsWith q.data l then some q.data else findQualifier rest l

/-- Matcher for the JOIN split regex
`/\b((?:INNER |LEFT |RIGHT |OUTER )?JOIN\b)/i`: an optional greedy
qualifier (with regex backtracking to the qualifier-less branch when
`JOIN` does not follow it) and then `JOIN` with a trailing word
boundary.  The captured group is the whole matched text. -/
def joinMatcher (prev : Option Char) (l : List Char) : Option (Nat × List Char) :=
  if isWordOpt prev then none
  else
    let plain : Option (Nat × List Char) :=
      if ciStartsWith "JOIN".data l && notWordAt l 4 then some (4, l.take 4) else none
    match findQualifier JOIN_QUALIFIERS l with
    | some q =>
        if ciStartsWith "JOIN".data (l.drop q.length) && notWordAt (l.drop q.length) 4 then
          some (q.length + 4, l.take (q.length + 4))
        else plain
    | none => plain

/-- One step of the inner loop over `joinParts`: skip blank fragments,
open a new clause at any fragment whose trimmed text ends (after
uppercasing) with `JOIN`, and append every other fragment to the
current clause with a separating space (the two source branches for
non-opener fragments perform the same append). -/
def stepJoinPart (st : List (List Char) × List Char) (p : List Char) :
    List (List Char) × List Char :=
  let jp := jsTrim p
  if jp = [] then st
  else if "JOIN".data.isSuffixOf (strUpper jp) then
    (if st.2 ≠ [] then st.1 ++ [jsTrim st.2] else st.1, jp)
  else
    (st.1, st.2 ++ ' ' :: jp)

/-- The `includes(upperPart)` test of the outer loop: is the trimmed,
uppercased part one of the major clause keywords? -/
def isMajorPart (p : List Char) : Bool :=
  MAJOR_KEYWORDS.contains (String.mk (strUpper (jsTrim p)))

/-- One step of the outer loop over `mainParts`: skip blank parts, open
a new clause at a major keyword part, and otherwise split the part at
JOIN boundaries and fold the fragments. -/
def stepMainPart (st : List (List Char) × List Char) (p : List Char) :
    List (List Char) × List Char :=
  if jsTrim p = [] then st
  else if isMajorPart p then
    (if st.2 ≠ [] then st.1 ++ [jsTrim st.2] else st.1, p)
  else
    (scanSplit joinMatcher p).foldl stepJoinPart st

/-- The clause segmentation loop of `formatSqlString`: split at major
keywords, fold the parts, and push any clause still accumulated. -/
def segmentClauses (l : List Char) : List (List Char) :=
  let st := (scanSplit majorMatcher l).foldl stepMainPart ([], [])
  if st.2 ≠ [] then st.1 ++ [jsTrim st.2] else st.1

/-- `clause.toUpperCase().includes('JOIN')`: substring containment. -/
def containsJOIN (l : List Char) : Bool :=
  (strUpper l).tails.any (fun t => "JOIN".data.isPrefixOf t)

/-- Matcher for `/\bON\b/gi` with the fixed replacement `repl`. -/
def onMatcher (repl : List Char) (prev : Option Char) (l : List Char) :
    Option (Nat × List Char) :=
  if isWordOpt prev then none
  else if ciStartsWith "ON".data l && notWordAt l 2 then some (2, repl) else none

/-- The per-clause map of the final formatting pass: in clauses whose
text contains `JOIN`, re-case every `\bON\b` match per `keywordCase`. -/
def recaseOn (kc : Option String) (clause : List Char) : List Char :=
  if containsJOIN clause then
    scanReplace (onMatcher (if kc = some "lower" then ['o', 'n'] else ['O', 'N'])) none clause
  else clause

/-- The final pass of `formatSqlString`: drop empty clauses, fix the
`ON` casing in JOIN clauses, and join the clauses with newlines. -/
def assembleClauses (kc : Option String) (clauses : List (List Char)) : List Char :=
  List.intercalate ['\n'] ((clauses.filter (· ≠ [])).map (recaseOn kc))

/-- The `formatSqlString` engine of `src/index.ts`. -/
def formatSqlString (sql : String) (opts : SqlFormatterOptions) : String :=
  String.mk
    (assembleClauses opts.keywordCase
      (segmentClauses
        (applyKeywordCase opts.keywordCase
          (normalizeSql opts sql.data))))

/-- Number of newline-separated lines of a string (one more than the
number of newline characters, as for a final string with no trailing
newline). -/
def countLines (s : String) : Nat := s.data.count '\n' + 1

/-- Original text of one segment of a replace-scan decomposition: a
literal character that the scan copied, or the text a match consumed. -/
def segOrig : Char ⊕ (List Char × List Char) → List Char
  | Sum.inl c => [c]
  | Sum.inr (o, _) => o

/-- Output text of one segment of a replace-scan decomposition: a
literal character, or the replacement a match emitted. -/
def segOut : Char ⊕ (List Char × List Char) → List Char
  | Sum.inl c => [c]
  | Sum.inr (_, r) => r

/-- Number of matches a global regex scan finds in `l` (same scanning
discipline as `scanReplaceF`), with explicit fuel. -/
def countMatchesF (matcher : Option Char → List Char → Option (Nat × List Char)) :
    Nat → Option Char → List Char → Nat
  | 0, _, _ => 0
  | _ + 1, _, [] => 0
  | fuel + 1, prev, c :: rest =>
    match matcher prev (c :: rest) with
    | some (n, _) =>
        1 + countMatchesF matcher fuel (((c :: rest).take (max n 1)).getLast?)
          ((c :: rest).drop (max n 1))
    | none => countMatchesF matcher fuel (some c) rest

/-- Number of matches a global regex scan finds in `l`. -/
def countMatches (matcher : Option Char → List Char → Option (Nat × List Char))
    (l : List Char) : Nat :=
  countMatchesF matcher l.length none l

/-- Spec-side counter for claim C8, following the spec's words: the
number of JOIN units present in a string, i.e. of word-boundary
occurrences of an optional `INNER|LEFT|RIGHT|OUTER` qualifier followed
by `JOIN` (spec section 4.3, step 2). -/
def specJoinUnitCount (l : List Char) : Nat :=
  countMatches joinMatcher l

/-- Spec-side counter for claim C8, following the spec's words: the
number of distinct top-level clauses, i.e. of segments introduced by the
major keywords `SELECT, FROM, WHERE, GROUP BY, HAVING, ORDER BY, LIMIT`,
plus one for a leading boundary-free segment when it is not blank. -/
def specTopLevelClauseCount (l : List Char) : Nat :=
  countMatches majorMatcher l +
    (match scanSplit majorMatcher l with
     | p :: _ => if jsTrim p = [] then 0 else 1
     | [] => 0)

/-- A fragment of the segmentation input, classified the way the
segmentation loop treats it: an opener starts a new clause, content is
appended to the current clause. -/
inductive ClauseElem where
  | opener (text : List Char)
  | content (text : List Char)

/-- Whether a fragment opens a new clause. -/
def ClauseElem.isOpener : ClauseElem → Bool
  | .opener _ => true
  | .content _ => false

/-- How the inner loop classifies one JOIN-split fragment: blank
fragments disappear, a fragment whose trimmed uppercased text ends in
`JOIN` opens a clause, every other fragment is content. -/
def joinElem (q : List Char) : Option ClauseElem :=
  if jsTrim q = [] then none
  else if "JOIN".data.isSuffixOf (strUpper (jsTrim q)) then
    some (ClauseElem.opener (jsTrim q))
  else some (ClauseElem.content (jsTrim q))

/-- The fragments of one part of the major-keyword split, classified:
blank parts disappear, a major keyword part is a single opener, and any
other part contributes its classified JOIN-split fragments. -/
def partElems (p : List Char) : List ClauseElem :=
  if jsTrim p = [] then []
  else if isMajorPart p then [ClauseElem.opener p]
  else (scanSplit joinMatcher p).filterMap joinElem

/-- All classified fragments of a segmentation input, in scan order. -/
def clauseElems (l : List Char) : List ClauseElem :=
  ((scanSplit majorMatcher l).map partElems).flatten

/-- The number of clause-opening fragments of a segmentation input:
major keyword parts plus JOIN-opening fragments (including fragments
whose trimmed text merely ends in the letters `JOIN`). -/
def clauseOpenerCount (l : List Char) : Nat :=
  (clauseElems l).countP (fun e => e.isOpener)

/-- One when a fragment sequence starts with content before any clause
opener (such content accumulates into a clause of its own). -/
def elemsLeadingContent : List ClauseElem → Nat
  | ClauseElem.content _ :: _ => 1
  | _ => 0

/-- One when the segmentation input starts with content before any
clause opener, zero otherwise (this is `elemsLeadingContent` of the
classified fragments). -/
def leadingContentCount (l : List Char) : Nat :=
  elemsLeadingContent (clauseElems l)

/-- The text of a classified fragment. -/
def elemText : ClauseElem → List Char
  | ClauseElem.opener t => t
  | ClauseElem.content t => t

/-- The loop state transition on one classified fragment: an opener
closes the current clause (pushing its trimmed text when nonblank) and
starts a new one with its own text, content is appended to the current
clause after a space. -/
def stepElem (st : List (List Char) × List Char) : ClauseElem → List (List Char) × List Char
  | ClauseElem.opener t => (if st.2 ≠ [] then st.1 ++ [jsTrim st.2] else st.1, t)
  | ClauseElem.content t => (st.1, st.2 ++ ' ' :: t)

/-- Fragments that produce well-formed loop states: nonempty text
containing at least one non-whitespace character. -/
def ElemWF (e : ClauseElem) : Prop :=
  elemText e ≠ [] ∧ ∃ c ∈ elemText e, isJsSpace c = false

/-- Number of clauses a loop state accounts for: the closed clauses plus
the one still accumulating when nonempty. -/
def stClauseCount (st : List (List Char) × List Char) : Nat :=
  st.1.length + (if st.2 = [] then 0 else 1)


/-- Claim C1: formatting `"select id,name,email from users where status=1"`
with default (empty) options yields exactly
`"SELECT id, name, email\nFROM users\nWHERE status = 1"`: keywords
uppercased, commas as comma-space, `=` space-padded, one clause per
line joined by single newlines with no trailing newline. -/
theorem claim_C1 :
    formatSqlString "select id,name,email from users where status=1" {} =
      "SELECT id, name, email\nFROM users\nWHERE status = 1" := by rfl

/-- Claim C6 counterexample: with the unrecognized keyword-case value
`"invalid"` the engine leaves `select` alone, while `keywordCase =
upper` uppercases it, so an unrecognized value does not behave like the
`upper` default. -/
theorem claim_C6_counterexample :
    formatSqlString "select a" { keywordCase := some "invalid" } = "select a" ∧
    formatSqlString "select a" { keywordCase := some "upper" } = "SELECT a" ∧
    ("select a" : String) ≠ "SELECT a" := ⟨rfl, rfl, by decide⟩

/-- Claim C8 counterexample: `"select ajoin"` formats to two lines, but
the input has one top-level clause and no JOIN unit (no word-boundary
`JOIN` occurrence), so the claimed line-count formula predicts one. -/
theorem claim_C8_counterexample :
    formatSqlString "select ajoin" {} = "SELECT\najoin" ∧
    countLines (formatSqlString "select ajoin" {}) = 2 ∧
    specTopLevelClauseCount (String.data "select ajoin") +
      specJoinUnitCount (String.data "select ajoin") = 1 := ⟨rfl, rfl, rfl⟩

/-- A replace scan decomposes its input into literal characters and
matches, the output being the same sequence with each match replaced;
`P` holds of every match and `Q` of every literal character. -/
theorem scanReplaceF_decomp
    (matcher : Option Char → List Char → Option (Nat × List Char))
    (P : List Char → List Char → Prop) (Q : Char → Prop)
    (hP : ∀ prev l n r, matcher prev l = some (n, r) → P (l.take (max n 1)) r)
    (hQ : ∀ prev c rest, matcher prev (c :: rest) = none → Q c) :
    ∀ (fuel : Nat) (prev : Option Char) (l : List Char), l.length ≤ fuel →
      ∃ segs : List (Char ⊕ (List Char × List Char)),
        (segs.map segOrig).flatten = l ∧
        (segs.map segOut).flatten = scanReplaceF matcher fuel prev l ∧
        (∀ c, Sum.inl c ∈ segs → Q c) ∧
        (∀ o r, Sum.inr (o, r) ∈ segs → P o r) := by
  intro fuel
  induction fuel with
  | zero =>
      intro prev l hl
      have hnil : l = [] := List.length_eq_zero.mp (Nat.le_zero.mp hl)
      subst hnil
      exact ⟨[], rfl, rfl, by simp, by simp⟩
  | succ fuel ih =>
      intro prev l hl
      match l with
      | [] => exact ⟨[], rfl, rfl, by simp, by simp⟩
      | c :: rest =>
        cases hm : matcher prev (c :: rest) with
        | none =>
            obtain ⟨segs, h1, h2, h3, h4⟩ := ih (some c) rest (by
              simp only [List.length_cons] at hl; omega)
            refine ⟨Sum.inl c :: segs, ?_, ?_, ?_, ?_⟩
            · simp [segOrig, h1]
            · simp only [scanReplaceF, hm, List.map_cons, List.flatten_cons, segOut, h2]
              rfl
            · intro c' hc'
              rcases List.mem_cons.mp hc' with h | h
              · cases Sum.inl.inj h; exact hQ prev c rest hm
              · exact h3 c' h
            · intro o r hor
              rcases List.mem_cons.mp hor with h | h
              · cases h
              · exact h4 o r h
        | some nr =>
            obtain ⟨n, r⟩ := nr
            obtain ⟨segs, h1, h2, h3, h4⟩ :=
              ih (((c :: rest).take (max n 1)).getLast?) ((c :: rest).drop (max n 1)) (by
                simp only [List.length_drop, List.length_cons] at *
                omega)
            refine ⟨Sum.inr ((c :: rest).take (max n 1), r) :: segs, ?_, ?_, ?_, ?_⟩
            · simp only [List.map_cons, List.flatten_cons, segOrig, h1]
              exact List.take_append_drop _ _
            · simp only [scanReplaceF, hm, List.map_cons, List.flatten_cons, segOut, h2]
            · intro c' hc'
              rcases List.mem_cons.mp hc' with h | h
              · cases h
              · exact h3 c' h
            · intro o r' hor
              rcases List.mem_cons.mp hor with h | h
              · cases Sum.inr.inj h
                exact hP prev (c :: rest) n r hm
              · exact h4 o r' h

/-- Decomposition of a full replace pass. -/
theorem scanReplace_decomp
    (matcher : Option Char → List Char → Option (Nat × List Char))
    (P : List Char → List Char → Prop) (Q : Char → Prop)
    (hP : ∀ prev l n r, matcher prev l = some (n, r) → P (l.take (max n 1)) r)
    (hQ : ∀ prev c rest, matcher prev (c :: rest) = none → Q c)
    (prev : Option Char) (l : List Char) :
    ∃ segs : List (Char ⊕ (List Char × List Char)),
      (segs.map segOrig).flatten = l ∧
      (segs.map segOut).flatten = scanReplace matcher prev l ∧
      (∀ c, Sum.inl c ∈ segs → Q c) ∧
      (∀ o r, Sum.inr (o, r) ∈ segs → P o r) :=
  scanReplaceF_decomp matcher P Q hP hQ l.length prev l le_rfl

/-- A successful case-insensitive prefix match means the uppercased
prefix of the subject is exactly the pattern. -/
theorem ciStartsWith_strUpper_take (p : List Char) :
    ∀ l : List Char, ciStartsWith p l = true → strUpper (l.take p.length) = p := by
  induction p with
  | nil => intro l _; simp [strUpper]
  | cons k ks ih =>
      intro l h
      match l with
      | [] => simp [ciStartsWith] at h
      | c :: cs =>
          simp only [ciStartsWith, Bool.and_eq_true, beq_iff_eq] at h
          simp only [List.length_cons, List.take_succ_cons, strUpper, List.map_cons]
          exact congrArg₂ (· :: ·) h.1 (ih cs h.2)

/-- What a successful keyword lookup guarantees: some listed keyword
matches case-insensitively at the head with a trailing word boundary. -/
theorem findKeyword_spec (kws : List String) (l : List Char) (kd : List Char)
    (h : findKeyword kws l = some kd) :
    ∃ k, k ∈ kws ∧ kd = k.data ∧ ciStartsWith k.data l = true ∧
      notWordAt l k.data.length = true := by
  induction kws with
  | nil => simp [findKeyword] at h
  | cons k rest ih =>
      cases hc : (ciStartsWith k.data l && notWordAt l k.data.length) with
      | true =>
          rw [Bool.and_eq_true] at hc
          simp only [findKeyword, hc.1, hc.2, Bool.and_self, if_true,
            Option.some.injEq] at h
          exact ⟨k, List.mem_cons_self _ _, h.symm, hc.1, hc.2⟩
      | false =>
          simp only [findKeyword, hc, Bool.false_eq_true, if_false] at h
          obtain ⟨k2, hk1, hk2, hk3, hk4⟩ := ih h
          exact ⟨k2, List.mem_cons_of_mem _ hk1, hk2, hk3, hk4⟩

/-- Unfolding equation of `findKeyword`. -/
theorem findKeyword_cons (k : String) (rest : List String) (l : List Char) :
    findKeyword (k :: rest) l =
      if ciStartsWith k.data l && notWordAt l k.data.length then some k.data
      else findKeyword rest l := rfl

/-- Keyword lookup succeeds whenever some listed keyword matches. -/
theorem findKeyword_isSome (kws : List String) (l : List Char) (k : String)
    (hk : k ∈ kws) (h1 : ciStartsWith k.data l = true)
    (h2 : notWordAt l k.data.length = true) :
    (findKeyword kws l).isSome := by
  induction kws with
  | nil => cases hk
  | cons k2 rest ih =>
      cases hc : (ciStartsWith k2.data l && notWordAt l k2.data.length) with
      | true => rw [findKeyword_cons, if_pos hc]; rfl
      | false =>
          rcases List.mem_cons.mp hk with h | h
          · subst h
            rw [h1, h2] at hc
            simp at hc
          · rw [findKeyword_cons, if_neg (by rw [hc]; simp)]
            exact ih h

/-- Every keyword of the case stage is nonempty. -/
theorem keywordList_ne_nil : ∀ k ∈ keywordList, k.data ≠ [] := by decide

/-- Every major clause keyword is nonempty. -/
theorem major_ne_nil : ∀ k ∈ MAJOR_KEYWORDS, k.data ≠ [] := by decide

/-- What a keyword-regex match guarantees: the consumed text uppercases
to a listed keyword and the replacement is the callback applied to it. -/
theorem kwMatcher_spec (f : List Char → List Char) (prev : Option Char) (l : List Char)
    (n : Nat) (r : List Char) (h : kwMatcher f prev l = some (n, r)) :
    ∃ k : String, k ∈ keywordList ∧ strUpper (l.take (max n 1)) = k.data ∧
      r = f (l.take (max n 1)) := by
  unfold kwMatcher at h
  cases hw : isWordOpt prev with
  | true => rw [hw] at h; simp at h
  | false =>
      rw [hw] at h
      simp only [Bool.false_eq_true, if_false] at h
      cases hf : findKeyword keywordList l with
      | none => rw [hf] at h; simp at h
      | some kd =>
          rw [hf] at h
          simp only [Option.some.injEq, Prod.mk.injEq] at h
          obtain ⟨hn, hr⟩ := h
          obtain ⟨k, hk, hkd, hci, _⟩ := findKeyword_spec _ _ _ hf
          subst hkd
          have hlen : 1 ≤ k.data.length :=
            List.length_pos.mpr (keywordList_ne_nil k hk)
          have hmax : max n 1 = n := by omega
          subst hn
          refine ⟨k, hk, ?_, ?_⟩
          · rw [hmax]
            exact ciStartsWith_strUpper_take k.data l hci
          · rw [hmax, hr]

/-- Claim C2: the keyword-case stage, on every match of the
case-insensitive whole-word keyword regex over the recognized set: with
`keywordCase` equal to `upper` or absent it replaces every match by its
uppercasing (and every matched text uppercases to a recognized
keyword); with `lower` it replaces every match by its lowercasing; with
`preserve` the stage is the identity.  Moreover the keyword matcher
fires wherever any recognized keyword occurs as a case-insensitive
whole word. -/
theorem claim_C2 (kc : Option String) (l : List Char) :
    (kc = some "preserve" → applyKeywordCase kc l = l) ∧
    ((kc = some "upper" ∨ kc = none) →
      ∃ segs : List (Char ⊕ (List Char × List Char)),
        (segs.map segOrig).flatten = l ∧
        (segs.map segOut).flatten = applyKeywordCase kc l ∧
        ∀ o r, Sum.inr (o, r) ∈ segs →
          String.mk (strUpper o) ∈ keywordList ∧ r = strUpper o) ∧
    (kc = some "lower" →
      ∃ segs : List (Char ⊕ (List Char × List Char)),
        (segs.map segOrig).flatten = l ∧
        (segs.map segOut).flatten = applyKeywordCase kc l ∧
        ∀ o r, Sum.inr (o, r) ∈ segs →
          String.mk (strUpper o) ∈ keywordList ∧ r = strLower o) ∧
    (∀ (f : List Char → List Char) (prev : Option Char) (w : List Char) (k : String),
        k ∈ keywordList → isWordOpt prev = false → ciStartsWith k.data w = true →
        notWordAt w k.data.length = true → (kwMatcher f prev w).isSome) := by
  refine ⟨?_, ?_, ?_, ?_⟩
  · intro h; subst h; rfl
  · intro h
    have heq : applyKeywordCase kc l = scanReplace (kwMatcher strUpper) none l := by
      rcases h with h | h <;> subst h <;> rfl
    rw [heq]
    obtain ⟨segs, h1, h2, _, h4⟩ := scanReplace_decomp (kwMatcher strUpper)
      (fun o r => String.mk (strUpper o) ∈ keywordList ∧ r = strUpper o)
      (fun _ => True)
      (fun prev w n r hm => by
        obtain ⟨k, hk, hup, hr⟩ := kwMatcher_spec _ _ _ _ _ hm
        exact ⟨by rw [hup]; exact hk, hr⟩)
      (fun _ _ _ _ => trivial) none l
    exact ⟨segs, h1, h2, h4⟩
  · intro h
    subst h
    have heq : applyKeywordCase (some "lower") l =
        scanReplace (kwMatcher strLower) none l := by rfl
    rw [heq]
    obtain ⟨segs, h1, h2, _, h4⟩ := scanReplace_decomp (kwMatcher strLower)
      (fun o r => String.mk (strUpper o) ∈ keywordList ∧ r = strLower o)
      (fun _ => True)
      (fun prev w n r hm => by
        obtain ⟨k, hk, hup, hr⟩ := kwMatcher_spec _ _ _ _ _ hm
        exact ⟨by rw [hup]; exact hk, hr⟩)
      (fun _ _ _ _ => trivial) none l
    exact ⟨segs, h1, h2, h4⟩
  · intro f prev w k hk hw h1 h2
    have := findKeyword_isSome keywordList w k hk h1 h2
    cases hf : findKeyword keywordList w with
    | none => rw [hf] at this; simp at this
    | some kd => simp [kwMatcher, hw, hf]

theorem claim_C2_witness :
    applyKeywordCase (some "preserve") (String.data "Select a") =
      String.data "Select a" :=
  (claim_C2 (some "preserve") (String.data "Select a")).1 rfl

/-- Taking as many elements as `takeWhile` keeps yields `takeWhile`. -/
theorem take_length_takeWhile (p : Char → Bool) :
    ∀ l : List Char, l.take (l.takeWhile p).length = l.takeWhile p
  | [] => rfl
  | c :: rest => by
      by_cases h : p c
      · rw [List.takeWhile_cons_of_pos h, List.length_cons, List.take_succ_cons,
          take_length_takeWhile p rest]
      · rw [List.takeWhile_cons_of_neg h]; rfl

/-- What a `\\s*X\\s*` match guarantees: the replacement is the fixed
string and the consumed text is the character surrounded by whitespace. -/
theorem wsAroundMatcher_spec (t : Char) (repl : List Char) (prev : Option Char)
    (l : List Char) (n : Nat) (r : List Char) (ht : isJsSpace t = false)
    (h : wsAroundMatcher t repl prev l = some (n, r)) :
    r = repl ∧ ∃ a b, l.take (max n 1) = a ++ t :: b ∧
      (∀ c ∈ a, isJsSpace c = true) ∧ (∀ c ∈ b, isJsSpace c = true) := by
  unfold wsAroundMatcher at h
  cases hd : l.dropWhile isJsSpace with
  | nil => rw [hd] at h; simp at h
  | cons c rest2 =>
      rw [hd] at h
      dsimp only at h
      by_cases hc : c = t
      · rw [if_pos hc] at h
        subst hc
        simp only [Option.some.injEq, Prod.mk.injEq] at h
        obtain ⟨hn, hr⟩ := h
        set a := l.takeWhile isJsSpace with ha
        set b := rest2.takeWhile isJsSpace with hb
        have hl : a ++ c :: rest2 = l := by
          rw [← hd, ha]; exact List.takeWhile_append_dropWhile isJsSpace l
        refine ⟨hr.symm, a, b, ?_, ?_, ?_⟩
        · have hmax : max n 1 = n := by omega
          have hn2 : n = a.length + (1 + b.length) := by omega
          rw [hmax, hn2, ← hl, List.take_append]
          congr 1
          rw [Nat.add_comm 1, List.take_succ_cons]
          congr 1
          rw [hb]
          exact take_length_takeWhile isJsSpace rest2
        · rw [ha]; exact fun c hc => List.mem_takeWhile_imp hc
        · rw [hb]; exact fun c hc => List.mem_takeWhile_imp hc
      · rw [if_neg hc] at h; cases h

/-- Where a `\\s*X\\s*` scan fails, the current character is not `X`. -/
theorem wsAroundMatcher_none (t : Char) (repl : List Char) (prev : Option Char)
    (c : Char) (rest : List Char) (ht : isJsSpace t = false)
    (h : wsAroundMatcher t repl prev (c :: rest) = none) : c ≠ t := by
  intro hc
  subst hc
  have hd : (c :: rest).dropWhile isJsSpace = c :: rest :=
    List.dropWhile_cons_of_neg (by simp [ht])
  unfold wsAroundMatcher at h
  rw [hd] at h
  dsimp only at h
  rw [if_pos rfl] at h
  cases h

/-- Claim C3: the comma-normalization stage decomposes its input so
that every `\\s*,\\s*` match (whitespace-surrounded comma) is rendered
as the replacement chosen by `commaPosition` -- `" , "` for `before`
and `", "` for every other value including `after`, `preserve` and
absent -- while every character outside a match (in particular, never a
comma) is copied unchanged. -/
theorem claim_C3 (opts : SqlFormatterOptions) (l : List Char) :
    (opts.commaPosition = some "before" → commaRepl opts = String.data " , ") ∧
    (opts.commaPosition ≠ some "before" → commaRepl opts = String.data ", ") ∧
    ∃ segs : List (Char ⊕ (List Char × List Char)),
      (segs.map segOrig).flatten = l ∧
      (segs.map segOut).flatten = normalizeCommas opts l ∧
      (∀ c, Sum.inl c ∈ segs → c ≠ ',') ∧
      (∀ o r, Sum.inr (o, r) ∈ segs →
        r = commaRepl opts ∧ ∃ a b, o = a ++ ',' :: b ∧
          (∀ c ∈ a, isJsSpace c = true) ∧ (∀ c ∈ b, isJsSpace c = true)) := by
  refine ⟨fun h => by simp [commaRepl, h], fun h => by simp [commaRepl, h], ?_⟩
  obtain ⟨segs, h1, h2, h3, h4⟩ := scanReplace_decomp
    (wsAroundMatcher ',' (commaRepl opts))
    (fun o r => r = commaRepl opts ∧ ∃ a b, o = a ++ ',' :: b ∧
      (∀ c ∈ a, isJsSpace c = true) ∧ (∀ c ∈ b, isJsSpace c = true))
    (fun c => c ≠ ',')
    (fun prev w n r hm => by
      obtain ⟨hr, a, b, hab, ha, hb⟩ :=
        wsAroundMatcher_spec ',' (commaRepl opts) prev w n r (by decide) hm
      exact ⟨hr, a, b, hab, ha, hb⟩)
    (fun prev c rest hm => wsAroundMatcher_none ',' (commaRepl opts) prev c rest (by decide) hm)
    none l
  exact ⟨segs, h1, h2, h3, h4⟩

theorem claim_C3_witness :
    commaRepl { commaPosition := some "before" } = String.data " , " :=
  (claim_C3 { commaPosition := some "before" } []).1 rfl

/-- What a `\\bON\\b` match guarantees. -/
theorem onMatcher_spec (repl : List Char) (prev : Option Char) (l : List Char)
    (n : Nat) (r : List Char) (h : onMatcher repl prev l = some (n, r)) :
    n = 2 ∧ r = repl ∧ strUpper (l.take 2) = ['O', 'N'] := by
  unfold onMatcher at h
  cases hw : isWordOpt prev with
  | true => rw [hw] at h; simp at h
  | false =>
      rw [hw] at h
      simp only [Bool.false_eq_true, if_false] at h
      by_cases hc : (ciStartsWith "ON".data l && notWordAt l 2) = true
      · rw [if_pos hc] at h
        simp only [Option.some.injEq, Prod.mk.injEq] at h
        rw [Bool.and_eq_true] at hc
        have := ciStartsWith_strUpper_take "ON".data l hc.1
        exact ⟨h.1.symm, h.2.symm, this⟩
      · rw [if_neg hc] at h; cases h

/-- Claim C4: in the assembly stage, a clause whose text does not
contain `JOIN` (case-insensitively) is emitted unchanged, while in a
clause that does, every `\\bON\\b` match is replaced by `on` when
`keywordCase = lower` and by `ON` for every other value (each matched
text uppercases to `ON`); and the `ON` matcher fires wherever `ON`
occurs as a case-insensitive whole word. -/
theorem claim_C4 (kc : Option String) (clause : List Char) :
    (containsJOIN clause = false → recaseOn kc clause = clause) ∧
    (containsJOIN clause = true →
      ∃ segs : List (Char ⊕ (List Char × List Char)),
        (segs.map segOrig).flatten = clause ∧
        (segs.map segOut).flatten = recaseOn kc clause ∧
        ∀ o r, Sum.inr (o, r) ∈ segs →
          strUpper o = ['O', 'N'] ∧
          r = (if kc = some "lower" then ['o', 'n'] else ['O', 'N'])) ∧
    (∀ (repl : List Char) (prev : Option Char) (w : List Char),
      isWordOpt prev = false → ciStartsWith "ON".data w = true →
      notWordAt w 2 = true → onMatcher repl prev w = some (2, repl)) := by
  refine ⟨?_, ?_, ?_⟩
  · intro h; unfold recaseOn; rw [h]; simp
  · intro h
    have heq : recaseOn kc clause =
        scanReplace (onMatcher (if kc = some "lower" then ['o', 'n'] else ['O', 'N']))
          none clause := by
      unfold recaseOn; rw [h]; simp
    rw [heq]
    obtain ⟨segs, h1, h2, _, h4⟩ := scanReplace_decomp
      (onMatcher (if kc = some "lower" then ['o', 'n'] else ['O', 'N']))
      (fun o r => strUpper o = ['O', 'N'] ∧
        r = (if kc = some "lower" then ['o', 'n'] else ['O', 'N']))
      (fun _ => True)
      (fun prev w n r hm => by
        obtain ⟨hn, hr, hup⟩ := onMatcher_spec _ _ _ _ _ hm
        subst hn
        exact ⟨hup, hr⟩)
      (fun _ _ _ _ => trivial) none clause
    exact ⟨segs, h1, h2, h4⟩
  · intro repl prev w hw h1 h2
    unfold onMatcher
    rw [hw]
    simp only [Bool.false_eq_true, if_false]
    rw [if_pos (by rw [h1, h2]; rfl)]

theorem claim_C4_witness :
    recaseOn none (String.data "WHERE x") = String.data "WHERE x" :=
  (claim_C4 none (String.data "WHERE x")).1 (by decide)

/-- Claim C5: two option records agreeing on `keywordCase` and
`commaPosition` but arbitrary in `indentStyle`, `linesBetweenQueries`
and `maxColumnLength` produce identical output for every input: those
three options have no effect. -/
theorem claim_C5 (sql : String) (o1 o2 : SqlFormatterOptions)
    (hk : o1.keywordCase = o2.keywordCase) (hc : o1.commaPosition = o2.commaPosition) :
    formatSqlString sql o1 = formatSqlString sql o2 := by
  obtain ⟨k1, i1, q1, m1, c1⟩ := o1
  obtain ⟨k2, i2, q2, m2, c2⟩ := o2
  dsimp only at hk hc
  subst hk
  subst hc
  rfl

theorem claim_C5_witness :
    formatSqlString "select 1" {} =
      formatSqlString "select 1"
        { indentStyle := some "tabular", linesBetweenQueries := some 7,
          maxColumnLength := some 0 } :=
  claim_C5 "select 1" _ _ rfl rfl

/-- Claim C7: the engine is total -- for every input string and every
option record `formatSqlString` returns a string (in this embedding
every stage is a total function; no error branch exists). -/
theorem claim_C7 (sql : String) (opts : SqlFormatterOptions) :
    ∃ out : String, formatSqlString sql opts = out := ⟨_, rfl⟩

theorem applyKeywordCase_other (s : String) (h1 : s ≠ "upper") (h2 : s ≠ "lower")
    (h3 : s ≠ "") (l : List Char) : applyKeywordCase (some s) l = l := by
  unfold applyKeywordCase
  rw [if_neg (by simp [h1, h3]), if_neg (by simp [h2])]

theorem recaseOn_ne_lower (kc : Option String) (h : kc ≠ some "lower")
    (clause : List Char) : recaseOn kc clause = recaseOn (some "preserve") clause := by
  unfold recaseOn
  rw [if_neg h, if_neg (show ¬((some "preserve" : Option String) = some "lower") by decide)]

theorem assembleClauses_congr (kc kc2 : Option String)
    (h : ∀ cl, recaseOn kc cl = recaseOn kc2 cl) (cls : List (List Char)) :
    assembleClauses kc cls = assembleClauses kc2 cls := by
  unfold assembleClauses
  rw [List.map_congr_left (fun cl _ => h cl)]

theorem formatSql_keywordCase_congr (sql : String) (opts : SqlFormatterOptions)
    (kc kc2 : Option String)
    (hA : ∀ l, applyKeywordCase kc l = applyKeywordCase kc2 l)
    (hR : ∀ cl, recaseOn kc cl = recaseOn kc2 cl) :
    formatSqlString sql { opts with keywordCase := kc } =
      formatSqlString sql { opts with keywordCase := kc2 } := by
  unfold formatSqlString
  dsimp only
  have hn : normalizeSql { opts with keywordCase := kc } sql.data =
      normalizeSql { opts with keywordCase := kc2 } sql.data := rfl
  rw [hn, hA, assembleClauses_congr kc kc2 hR]

/-- Claim C6 (amended): a keyword-case value outside the recognized
choices behaves like `preserve` when it is a nonempty string (the
case-stage condition tests JavaScript falsiness, not membership), while
the falsy values -- the empty string and an absent option -- behave
like `upper`. -/
theorem claim_C6_amended (sql : String) (opts : SqlFormatterOptions) (s : String)
    (h1 : s ≠ "upper") (h2 : s ≠ "lower") (h3 : s ≠ "") :
    formatSqlString sql { opts with keywordCase := some s } =
      formatSqlString sql { opts with keywordCase := some "preserve" } ∧
    formatSqlString sql { opts with keywordCase := some "" } =
      formatSqlString sql { opts with keywordCase := some "upper" } ∧
    formatSqlString sql { opts with keywordCase := none } =
      formatSqlString sql { opts with keywordCase := some "upper" } := by
  refine ⟨?_, ?_, ?_⟩
  · exact formatSql_keywordCase_congr sql opts (some s) (some "preserve")
      (fun l => (applyKeywordCase_other s h1 h2 h3 l).trans
        (applyKeywordCase_other "preserve" (by decide) (by decide) (by decide) l).symm)
      (fun cl => recaseOn_ne_lower (some s) (by simp [h2]) cl)
  · exact formatSql_keywordCase_congr sql opts (some "") (some "upper")
      (fun l => rfl)
      (fun cl => (recaseOn_ne_lower (some "") (by decide) cl).trans
        (recaseOn_ne_lower (some "upper") (by decide) cl).symm)
  · exact formatSql_keywordCase_congr sql opts none (some "upper")
      (fun l => rfl)
      (fun cl => (recaseOn_ne_lower none (by decide) cl).trans
        (recaseOn_ne_lower (some "upper") (by decide) cl).symm)

theorem claim_C6_amended_witness :
    formatSqlString "select a" { keywordCase := some "invalid" } =
      formatSqlString "select a" { keywordCase := some "preserve" } :=
  (claim_C6_amended "select a" {} "invalid" (by decide) (by decide) (by decide)).1

theorem scanReplaceF_nil (matcher : Option Char → List Char → Option (Nat × List Char))
    (fuel : Nat) (prev : Option Char) : scanReplaceF matcher fuel prev [] = [] := by
  cases fuel <;> rfl

theorem collapseWhitespace_allspace (l : List Char) (h : ∀ c ∈ l, isJsSpace c = true) :
    jsTrim (collapseWhitespace l) = [] := by
  cases l with
  | nil => rfl
  | cons c rest =>
      have hc : isJsSpace c = true := h c (List.mem_cons_self _ _)
      have htw : (c :: rest).takeWhile isJsSpace = c :: rest :=
        List.takeWhile_eq_self_iff.mpr h
      have hm : wsRunMatcher none (c :: rest) = some (rest.length + 1, [' ']) := by
        unfold wsRunMatcher
        dsimp only
        rw [if_pos hc, htw]
        simp
      unfold collapseWhitespace scanReplace
      simp only [List.length_cons, scanReplaceF, hm]
      have hmax : max (rest.length + 1) 1 = rest.length + 1 := by omega
      rw [hmax, show rest.length + 1 = (c :: rest).length by simp, List.drop_length,
        scanReplaceF_nil]
      rfl

theorem normalizeSql_allspace (opts : SqlFormatterOptions) (l : List Char)
    (h : ∀ c ∈ l, isJsSpace c = true) : normalizeSql opts l = [] := by
  unfold normalizeSql
  rw [collapseWhitespace_allspace l h]
  rfl

theorem applyKeywordCase_nil (kc : Option String) : applyKeywordCase kc [] = [] := by
  unfold applyKeywordCase
  split
  · rfl
  · split
    · rfl
    · rfl

/-- Claim C10: a whitespace-only input (including the empty string)
formats to the empty string under every option record, and the output
contains no newline. -/
theorem claim_C10 (l : List Char) (opts : SqlFormatterOptions)
    (h : ∀ c ∈ l, isJsSpace c = true) :
    formatSqlString (String.mk l) opts = "" ∧
    '\n' ∉ (formatSqlString (String.mk l) opts).data := by
  have hfmt : formatSqlString (String.mk l) opts = "" := by
    unfold formatSqlString
    rw [show (String.mk l).data = l from rfl, normalizeSql_allspace opts l h,
      applyKeywordCase_nil]
    rfl
  refine ⟨hfmt, ?_⟩
  rw [hfmt]
  simp

theorem claim_C10_witness :
    formatSqlString (String.mk (String.data " \t\n ")) {} = "" :=
  (claim_C10 (String.data " \t\n ") {} (by decide)).1

theorem mem_dropWhile_of_not (p : Char → Bool) (l : List Char) (c : Char)
    (hc : c ∈ l) (hp : p c = false) : c ∈ l.dropWhile p := by
  have := List.takeWhile_append_dropWhile p l
  rw [← this] at hc
  rcases List.mem_append.mp hc with h | h
  · have := List.mem_takeWhile_imp h
    rw [hp] at this
    cases this
  · exact h

theorem jsTrim_subset (l : List Char) : jsTrim l ⊆ l := by
  intro c hc
  unfold jsTrim at hc
  rw [List.mem_reverse] at hc
  have h1 := (List.dropWhile_suffix (l := (l.dropWhile isJsSpace).reverse)
    (p := isJsSpace)).subset hc
  rw [List.mem_reverse] at h1
  exact (List.dropWhile_suffix (l := l) (p := isJsSpace)).subset h1

theorem mem_jsTrim_of_not_space (l : List Char) (c : Char)
    (hc : c ∈ l) (hp : isJsSpace c = false) : c ∈ jsTrim l := by
  unfold jsTrim
  rw [List.mem_reverse]
  apply mem_dropWhile_of_not _ _ _ _ hp
  rw [List.mem_reverse]
  exact mem_dropWhile_of_not _ _ _ hc hp

theorem jsTrim_eq_nil_iff (l : List Char) :
    jsTrim l = [] ↔ ∀ c ∈ l, isJsSpace c = true := by
  constructor
  · intro h c hc
    cases hp : isJsSpace c with
    | true => rfl
    | false =>
        have := mem_jsTrim_of_not_space l c hc hp
        rw [h] at this
        cases this
  · intro h
    unfold jsTrim
    rw [List.reverse_eq_nil_iff, List.dropWhile_eq_nil_iff]
    intro c hc
    rw [List.mem_reverse] at hc
    exact h c ((List.dropWhile_suffix (l := l) (p := isJsSpace)).subset hc)

theorem jsTrim_ne_nil (l : List Char) (c : Char) (hc : c ∈ l)
    (hp : isJsSpace c = false) : jsTrim l ≠ [] := by
  intro h
  have := (jsTrim_eq_nil_iff l).mp h c hc
  rw [hp] at this
  cases this

theorem stepJoinPart_elem (st : List (List Char) × List Char) (q : List Char) :
    stepJoinPart st q =
      match joinElem q with
      | none => st
      | some e => stepElem st e := by
  unfold stepJoinPart joinElem
  by_cases h1 : jsTrim q = []
  · rw [if_pos h1, if_pos h1]
  · rw [if_neg h1, if_neg h1]
    by_cases h2 : "JOIN".data.isSuffixOf (strUpper (jsTrim q)) = true
    · rw [if_pos h2, if_pos h2]
      rfl
    · rw [if_neg h2, if_neg h2]
      rfl

theorem foldl_stepJoinPart_eq (qs : List (List Char))
    (st : List (List Char) × List Char) :
    qs.foldl stepJoinPart st = (qs.filterMap joinElem).foldl stepElem st := by
  induction qs generalizing st with
  | nil => rfl
  | cons q qs ih =>
      rw [List.foldl_cons, stepJoinPart_elem]
      cases hj : joinElem q with
      | none => rw [List.filterMap_cons_none hj]; exact ih st
      | some e => rw [List.filterMap_cons_some hj, List.foldl_cons]; exact ih _

theorem stepMainPart_elems (st : List (List Char) × List Char) (p : List Char) :
    stepMainPart st p = (partElems p).foldl stepElem st := by
  unfold stepMainPart partElems
  by_cases h1 : jsTrim p = []
  · rw [if_pos h1, if_pos h1]
    rfl
  · rw [if_neg h1, if_neg h1]
    by_cases h2 : isMajorPart p = true
    · rw [if_pos h2, if_pos h2]
      rfl
    · rw [if_neg h2, if_neg h2]
      exact foldl_stepJoinPart_eq _ st

theorem foldl_stepMainPart_eq (parts : List (List Char))
    (st : List (List Char) × List Char) :
    parts.foldl stepMainPart st = ((parts.map partElems).flatten).foldl stepElem st := by
  induction parts generalizing st with
  | nil => rfl
  | cons p parts ih =>
      rw [List.foldl_cons, List.map_cons, List.flatten_cons, List.foldl_append,
        stepMainPart_elems]
      exact ih _

theorem segmentClauses_elems (l : List Char) :
    segmentClauses l =
      (if ((clauseElems l).foldl stepElem ([], [])).2 ≠ [] then
        ((clauseElems l).foldl stepElem ([], [])).1 ++
          [jsTrim ((clauseElems l).foldl stepElem ([], [])).2]
      else ((clauseElems l).foldl stepElem ([], [])).1) := by
  unfold segmentClauses clauseElems
  rw [foldl_stepMainPart_eq]

theorem foldl_stepElem_count (elems : List ClauseElem) :
    ∀ st : List (List Char) × List Char, st.2 ≠ [] →
      (∀ e ∈ elems, elemText e ≠ []) →
      stClauseCount (elems.foldl stepElem st) =
        stClauseCount st + elems.countP (fun e => e.isOpener) := by
  induction elems with
  | nil => intro st h _; simp
  | cons e elems ih =>
      intro st hst hwf
      rw [List.foldl_cons, List.countP_cons]
      cases e with
      | opener t =>
          have ht : t ≠ [] := hwf _ (List.mem_cons_self _ _)
          have hstep : stepElem st (ClauseElem.opener t) =
              (st.1 ++ [jsTrim st.2], t) := by
            unfold stepElem
            rw [if_pos hst]
          rw [hstep, ih _ (by exact ht) (fun e he => hwf e (List.mem_cons_of_mem _ he))]
          unfold stClauseCount
          rw [if_neg hst, if_neg ht]
          simp [ClauseElem.isOpener]
          omega
      | content t =>
          have hstep : stepElem st (ClauseElem.content t) =
              (st.1, st.2 ++ ' ' :: t) := rfl
          have hne : st.2 ++ ' ' :: t ≠ [] := by simp
          rw [hstep, ih _ hne (fun e he => hwf e (List.mem_cons_of_mem _ he))]
          unfold stClauseCount
          rw [if_neg hst, if_neg hne]
          simp [ClauseElem.isOpener]

theorem foldl_stepElem_count_start (elems : List ClauseElem)
    (hwf : ∀ e ∈ elems, elemText e ≠ []) :
    stClauseCount (elems.foldl stepElem ([], [])) =
      elems.countP (fun e => e.isOpener) + elemsLeadingContent elems := by
  cases elems with
  | nil => rfl
  | cons e elems =>
      rw [List.foldl_cons, List.countP_cons]
      cases e with
      | opener t =>
          have ht : t ≠ [] := hwf _ (List.mem_cons_self _ _)
          have hstep : stepElem ([], []) (ClauseElem.opener t) = ([], t) := by
            unfold stepElem
            simp
          rw [hstep, foldl_stepElem_count elems ([], t) ht
            (fun e he => hwf e (List.mem_cons_of_mem _ he))]
          unfold stClauseCount elemsLeadingContent
          rw [if_neg ht]
          simp [ClauseElem.isOpener]
          omega
      | content t =>
          have hstep : stepElem ([], []) (ClauseElem.content t) = ([], ' ' :: t) := rfl
          rw [hstep, foldl_stepElem_count elems ([], ' ' :: t) (by simp)
            (fun e he => hwf e (List.mem_cons_of_mem _ he))]
          unfold stClauseCount elemsLeadingContent
          simp [ClauseElem.isOpener]
          omega

theorem foldl_stepElem_inv (elems : List ClauseElem) :
    ∀ st : List (List Char) × List Char,
      (∀ e ∈ elems, ElemWF e) →
      (∀ e ∈ elems, '\n' ∉ elemText e) →
      (∀ x ∈ st.1, x ≠ [] ∧ '\n' ∉ x) →
      (st.2 = [] ∨ ((∃ c ∈ st.2, isJsSpace c = false) ∧ '\n' ∉ st.2)) →
      (∀ x ∈ (elems.foldl stepElem st).1, x ≠ [] ∧ '\n' ∉ x) ∧
      ((elems.foldl stepElem st).2 = [] ∨
        ((∃ c ∈ (elems.foldl stepElem st).2, isJsSpace c = false) ∧
          '\n' ∉ (elems.foldl stepElem st).2)) := by
  induction elems with
  | nil => intro st _ _ h1 h2; exact ⟨h1, h2⟩
  | cons e elems ih =>
      intro st hwf hnl h1 h2
      rw [List.foldl_cons]
      have hwf' := fun e he => hwf e (List.mem_cons_of_mem _ he)
      have hnl' := fun e he => hnl e (List.mem_cons_of_mem _ he)
      have hewf : ElemWF e := hwf _ (List.mem_cons_self _ _)
      have henl : '\n' ∉ elemText e := hnl _ (List.mem_cons_self _ _)
      cases e with
      | opener t =>
          obtain ⟨htne, c, hc, hcw⟩ := hewf
          apply ih _ hwf' hnl'
          · intro x hx
            unfold stepElem at hx
            by_cases hst : st.2 ≠ []
            · rw [if_pos hst] at hx
              dsimp only at hx
              rcases List.mem_append.mp hx with h | h
              · exact h1 x h
              · rcases h2 with h2 | ⟨⟨c2, hc2, hc2w⟩, h2nl⟩
                · exact absurd h2 hst
                · rw [List.mem_singleton] at h
                  subst h
                  exact ⟨jsTrim_ne_nil _ _ hc2 hc2w,
                    fun hmem => h2nl (jsTrim_subset _ hmem)⟩
            · rw [if_neg hst] at hx
              exact h1 x hx
          · right
            exact ⟨⟨c, hc, hcw⟩, henl⟩
      | content t =>
          obtain ⟨htne, c, hc, hcw⟩ := hewf
          apply ih _ hwf' hnl'
          · intro x hx
            exact h1 x hx
          · right
            constructor
            · exact ⟨c, by simp [stepElem]; exact Or.inr (Or.inr hc), hcw⟩
            · intro hmem
              unfold stepElem at hmem
              dsimp only at hmem
              rcases List.mem_append.mp hmem with h | h
              · rcases h2 with h2 | ⟨_, h2nl⟩
                · rw [h2] at h; cases h
                · exact h2nl h
              · rcases List.mem_cons.mp h with h | h
                · cases h
                · exact henl h

theorem scanSplitF_chars
    (matcher : Option Char → List Char → Option (Nat × List Char))
    (hcap : ∀ prev l n cap, matcher prev l = some (n, cap) → ∀ c ∈ cap, c ∈ l) :
    ∀ (fuel : Nat) (prev : Option Char) (acc l : List Char),
      ∀ p ∈ scanSplitF matcher fuel prev acc l, ∀ c ∈ p, c ∈ acc ∨ c ∈ l := by
  intro fuel
  induction fuel with
  | zero =>
      intro prev acc l p hp c hc
      simp only [scanSplitF, List.mem_singleton] at hp
      subst hp
      rcases List.mem_append.mp hc with h | h
      · exact Or.inl (List.mem_reverse.mp h)
      · exact Or.inr h
  | succ fuel ih =>
      intro prev acc l p hp c hc
      match l with
      | [] =>
          simp only [scanSplitF, List.mem_singleton] at hp
          subst hp
          exact Or.inl (List.mem_reverse.mp hc)
      | a :: rest =>
          rw [scanSplitF] at hp
          cases hm : matcher prev (a :: rest) with
          | some nc =>
              obtain ⟨n, cap⟩ := nc
              rw [hm] at hp
              dsimp only at hp
              rcases List.mem_cons.mp hp with h | h
              · subst h; exact Or.inl (List.mem_reverse.mp hc)
              · rcases List.mem_cons.mp h with h | h
                · subst h
                  exact Or.inr (hcap prev (a :: rest) n p hm c hc)
                · rcases ih _ [] _ p h c hc with h2 | h2
                  · cases h2
                  · exact Or.inr (List.drop_subset _ _ h2)
          | none =>
              rw [hm] at hp
              dsimp only at hp
              rcases ih (some a) (a :: acc) rest p hp c hc with h2 | h2
              · rcases List.mem_cons.mp h2 with h3 | h3
                · subst h3; exact Or.inr (List.mem_cons_self _ _)
                · exact Or.inl h3
              · exact Or.inr (List.mem_cons_of_mem _ h2)

theorem majorMatcher_cap (prev : Option Char) (l : List Char) (n : Nat)
    (cap : List Char) (h : majorMatcher prev l = some (n, cap)) : ∀ c ∈ cap, c ∈ l := by
  unfold majorMatcher at h
  cases hw : isWordOpt prev with
  | true => rw [hw] at h; simp at h
  | false =>
      rw [hw] at h
      simp only [Bool.false_eq_true, if_false] at h
      cases hf : findKeyword MAJOR_KEYWORDS l with
      | none => rw [hf] at h; cases h
      | some kd =>
          rw [hf] at h
          simp only [Option.some.injEq, Prod.mk.injEq] at h
          rw [← h.2]
          exact fun c hc => List.take_subset _ _ hc

theorem joinMatcher_cap (prev : Option Char) (l : List Char) (n : Nat)
    (cap : List Char) (h : joinMatcher prev l = some (n, cap)) : ∀ c ∈ cap, c ∈ l := by
  unfold joinMatcher at h
  cases hw : isWordOpt prev with
  | true => rw [hw] at h; simp at h
  | false =>
      rw [hw] at h
      simp only [Bool.false_eq_true, if_false] at h
      have hplain : ∀ m : Nat, ∀ cp : List Char,
          (if ciStartsWith "JOIN".data l && notWordAt l 4 then
            some (4, l.take 4) else none) = some (m, cp) → ∀ c ∈ cp, c ∈ l := by
        intro m cp hp
        by_cases hc : (ciStartsWith "JOIN".data l && notWordAt l 4) = true
        · rw [if_pos hc] at hp
          simp only [Option.some.injEq, Prod.mk.injEq] at hp
          rw [← hp.2]
          exact fun c hc => List.take_subset _ _ hc
        · rw [if_neg hc] at hp; cases hp
      cases hq : findQualifier JOIN_QUALIFIERS l with
      | none =>
          rw [hq] at h
          dsimp only at h
          exact hplain n cap h
      | some q =>
          rw [hq] at h
          dsimp only at h
          by_cases hjq : (ciStartsWith "JOIN".data (l.drop q.length) &&
              notWordAt (l.drop q.length) 4) = true
          · rw [if_pos hjq] at h
            simp only [Option.some.injEq, Prod.mk.injEq] at h
            rw [← h.2]
            exact fun c hc => List.take_subset _ _ hc
          · rw [if_neg hjq] at h
            exact hplain n cap h

theorem bool_ne_false (b : Bool) (h : b ≠ false) : b = true := by
  cases b
  · exact absurd rfl h
  · rfl

theorem exists_not_space_of_trim_ne_nil (q : List Char) (h : jsTrim q ≠ []) :
    ∃ c ∈ q, isJsSpace c = false := by
  by_contra hall
  push_neg at hall
  apply h
  rw [jsTrim_eq_nil_iff]
  exact fun c hc => bool_ne_false _ (hall c hc)

theorem clauseElems_wf (s : List Char) : ∀ e ∈ clauseElems s, ElemWF e := by
  intro e he
  unfold clauseElems at he
  rw [List.mem_flatten] at he
  obtain ⟨el, hel, he⟩ := he
  rw [List.mem_map] at hel
  obtain ⟨p, hp, rfl⟩ := hel
  unfold partElems at he
  by_cases h1 : jsTrim p = []
  · rw [if_pos h1] at he; cases he
  · rw [if_neg h1] at he
    by_cases h2 : isMajorPart p = true
    · rw [if_pos h2] at he
      rw [List.mem_singleton] at he
      subst he
      obtain ⟨c, hcq, hcw⟩ := exists_not_space_of_trim_ne_nil p h1
      refine ⟨?_, c, hcq, hcw⟩
      intro hp0
      rw [show elemText (ClauseElem.opener p) = p from rfl] at hp0
      rw [hp0] at h1
      exact h1 rfl
    · rw [if_neg h2] at he
      rw [List.mem_filterMap] at he
      obtain ⟨q, hq, hjq⟩ := he
      unfold joinElem at hjq
      by_cases h3 : jsTrim q = []
      · rw [if_pos h3] at hjq; cases hjq
      · rw [if_neg h3] at hjq
        obtain ⟨c, hcq, hcw⟩ := exists_not_space_of_trim_ne_nil q h3
        have hct : c ∈ jsTrim q := mem_jsTrim_of_not_space q c hcq hcw
        by_cases h4 : "JOIN".data.isSuffixOf (strUpper (jsTrim q)) = true
        · rw [if_pos h4] at hjq
          rw [Option.some.injEq] at hjq
          subst hjq
          exact ⟨h3, c, hct, hcw⟩
        · rw [if_neg h4] at hjq
          rw [Option.some.injEq] at hjq
          subst hjq
          exact ⟨h3, c, hct, hcw⟩

theorem scanSplit_chars_aux (matcher : Option Char → List Char → Option (Nat × List Char))
    (hcap : ∀ prev l n cap, matcher prev l = some (n, cap) → ∀ c ∈ cap, c ∈ l)
    (l : List Char) (p : List Char) (hp : p ∈ scanSplit matcher l) :
    ∀ c ∈ p, c ∈ l := by
  intro c hc
  unfold scanSplit at hp
  rcases scanSplitF_chars matcher hcap l.length none [] l p hp c hc with h | h
  · cases h
  · exact h

theorem clauseElems_no_lf (s : List Char) (hs : ∀ c ∈ s, c ≠ '\n') :
    ∀ e ∈ clauseElems s, '\n' ∉ elemText e := by
  intro e he hmem
  unfold clauseElems at he
  rw [List.mem_flatten] at he
  obtain ⟨el, hel, he⟩ := he
  rw [List.mem_map] at hel
  obtain ⟨p, hp, rfl⟩ := hel
  have hpchars : ∀ c ∈ p, c ∈ s := scanSplit_chars_aux majorMatcher majorMatcher_cap s p hp
  unfold partElems at he
  by_cases h1 : jsTrim p = []
  · rw [if_pos h1] at he; cases he
  · rw [if_neg h1] at he
    by_cases h2 : isMajorPart p = true
    · rw [if_pos h2] at he
      rw [List.mem_singleton] at he
      subst he
      exact hs '\n' (hpchars '\n' hmem) rfl
    · rw [if_neg h2] at he
      rw [List.mem_filterMap] at he
      obtain ⟨q, hq, hjq⟩ := he
      have hqchars : ∀ c ∈ q, c ∈ p := scanSplit_chars_aux joinMatcher joinMatcher_cap p q hq
      unfold joinElem at hjq
      by_cases h3 : jsTrim q = []
      · rw [if_pos h3] at hjq; cases hjq
      · rw [if_neg h3] at hjq
        have htext : elemText e = jsTrim q := by
          by_cases h4 : "JOIN".data.isSuffixOf (strUpper (jsTrim q)) = true
          · rw [if_pos h4, Option.some.injEq] at hjq; subst hjq; rfl
          · rw [if_neg h4, Option.some.injEq] at hjq; subst hjq; rfl
        rw [htext] at hmem
        exact hs '\n' (hpchars '\n' (hqchars '\n' (jsTrim_subset q hmem))) rfl

theorem scanReplaceF_chars_pres
    (matcher : Option Char → List Char → Option (Nat × List Char)) (P : Char → Prop)
    (hsome : ∀ prev l n r, matcher prev l = some (n, r) →
      (∀ c ∈ l, P c) → ∀ c ∈ r, P c) :
    ∀ (fuel : Nat) (prev : Option Char) (l : List Char), (∀ c ∈ l, P c) →
      ∀ c ∈ scanReplaceF matcher fuel prev l, P c := by
  intro fuel
  induction fuel with
  | zero => intro prev l hl c hc; exact hl c hc
  | succ fuel ih =>
      intro prev l hl c hc
      match l with
      | [] => cases hc
      | a :: rest =>
          rw [scanReplaceF] at hc
          cases hm : matcher prev (a :: rest) with
          | some nr =>
              obtain ⟨n, r⟩ := nr
              rw [hm] at hc
              dsimp only at hc
              rcases List.mem_append.mp hc with h | h
              · exact hsome prev (a :: rest) n r hm hl c h
              · exact ih _ _ (fun d hd => hl d (List.drop_subset _ _ hd)) c h
          | none =>
              rw [hm] at hc
              dsimp only at hc
              rcases List.mem_cons.mp hc with h | h
              · subst h; exact hl c (List.mem_cons_self _ _)
              · exact ih _ _ (fun d hd => hl d (List.mem_cons_of_mem _ hd)) c h

theorem scanReplaceF_chars_est
    (matcher : Option Char → List Char → Option (Nat × List Char)) (P : Char → Prop)
    (hnone : ∀ prev c rest, matcher prev (c :: rest) = none → P c)
    (hsome : ∀ prev l n r, matcher prev l = some (n, r) → ∀ c ∈ r, P c) :
    ∀ (fuel : Nat) (prev : Option Char) (l : List Char), l.length ≤ fuel →
      ∀ c ∈ scanReplaceF matcher fuel prev l, P c := by
  intro fuel
  induction fuel with
  | zero =>
      intro prev l hl c hc
      have : l = [] := List.length_eq_zero.mp (Nat.le_zero.mp hl)
      subst this
      cases hc
  | succ fuel ih =>
      intro prev l hl c hc
      match l with
      | [] => cases hc
      | a :: rest =>
          rw [scanReplaceF] at hc
          cases hm : matcher prev (a :: rest) with
          | some nr =>
              obtain ⟨n, r⟩ := nr
              rw [hm] at hc
              dsimp only at hc
              rcases List.mem_append.mp hc with h | h
              · exact hsome prev (a :: rest) n r hm c h
              · refine ih _ _ ?_ c h
                simp only [List.length_drop, List.length_cons] at *
                omega
          | none =>
              rw [hm] at hc
              dsimp only at hc
              rcases List.mem_cons.mp hc with h | h
              · subst h; exact hnone prev c rest hm
              · refine ih _ _ ?_ c h
                simp only [List.length_cons] at hl
                omega

theorem toUpperAscii_ne_lf (c : Char) (h : c ≠ '\n') : toUpperAscii c ≠ '\n' := by
  unfold toUpperAscii
  split <;> first | decide | exact h

theorem toLowerAscii_ne_lf (c : Char) (h : c ≠ '\n') : toLowerAscii c ≠ '\n' := by
  unfold toLowerAscii
  split <;> first | decide | exact h

theorem collapseWhitespace_no_lf (l : List Char) :
    ∀ c ∈ collapseWhitespace l, c ≠ '\n' := by
  intro c hc
  refine scanReplaceF_chars_est wsRunMatcher (fun c => c ≠ '\n') ?_ ?_ l.length none l
    le_rfl c hc
  · intro prev a rest hm
    unfold wsRunMatcher at hm
    dsimp only at hm
    by_cases ha : isJsSpace a = true
    · rw [if_pos ha] at hm; cases hm
    · intro hEq
      subst hEq
      exact ha (by decide)
  · intro prev w n r hm c hcr
    unfold wsRunMatcher at hm
    match w, hm with
    | a :: rest, hm =>
        dsimp only at hm
        by_cases ha : isJsSpace a = true
        · rw [if_pos ha] at hm
          simp only [Option.some.injEq, Prod.mk.injEq] at hm
          rw [← hm.2] at hcr
          rw [List.mem_singleton] at hcr
          subst hcr
          decide
        · rw [if_neg ha] at hm; cases hm

theorem spaceOperators_no_lf (x : List Char) (hx : ∀ c ∈ x, c ≠ '\n') :
    ∀ c ∈ spaceOperators x, c ≠ '\n' := by
  intro c hc
  refine scanReplaceF_chars_pres opRunMatcher (fun c => c ≠ '\n') ?_ x.length none x hx c hc
  intro prev w n r hm hw d hdr
  unfold opRunMatcher at hm
  match w, hm with
  | a :: rest, hm =>
      dsimp only at hm
      by_cases ha : isOpChar a = true
      · rw [if_pos ha] at hm
        simp only [Option.some.injEq, Prod.mk.injEq] at hm
        rw [← hm.2] at hdr
        rcases List.mem_cons.mp hdr with h | h
        · subst h; decide
        · rcases List.mem_append.mp h with h | h
          · exact hw d ((List.takeWhile_prefix _).subset h)
          · rw [List.mem_singleton] at h; subst h; decide
      · rw [if_neg ha] at hm; cases hm

theorem wsAround_no_lf (t : Char) (repl : List Char) (ht : isJsSpace t = false)
    (hrepl : ∀ c ∈ repl, c ≠ '\n') (x : List Char) (hx : ∀ c ∈ x, c ≠ '\n') :
    ∀ c ∈ scanReplace (wsAroundMatcher t repl) none x, c ≠ '\n' := by
  intro c hc
  refine scanReplaceF_chars_pres (wsAroundMatcher t repl) (fun c => c ≠ '\n') ?_
    x.length none x hx c hc
  intro prev w n r hm hw d hdr
  obtain ⟨hr, _⟩ := wsAroundMatcher_spec t repl prev w n r ht hm
  rw [hr] at hdr
  exact hrepl d hdr

theorem commaRepl_no_lf (opts : SqlFormatterOptions) :
    ∀ c ∈ commaRepl opts, c ≠ '\n' := by
  unfold commaRepl
  split
  · decide
  · decide

theorem fixFunctionCalls_no_lf (x : List Char) (hx : ∀ c ∈ x, c ≠ '\n') :
    ∀ c ∈ fixFunctionCalls x, c ≠ '\n' := by
  intro c hc
  refine scanReplaceF_chars_pres funcCallMatcher (fun c => c ≠ '\n') ?_
    x.length none x hx c hc
  intro prev w n r hm hw d hdr
  unfold funcCallMatcher at hm
  by_cases h1 : w.takeWhile isWordChar = []
  · rw [if_pos h1] at hm; cases hm
  · rw [if_neg h1] at hm
    split at hm
    · simp only [Option.some.injEq, Prod.mk.injEq] at hm
      rw [← hm.2] at hdr
      rcases List.mem_append.mp hdr with h | h
      · exact hw d ((List.takeWhile_prefix _).subset h)
      · rw [List.mem_singleton] at h; subst h; decide
    · cases hm

theorem normalizeSql_no_lf (opts : SqlFormatterOptions) (l : List Char) :
    ∀ c ∈ normalizeSql opts l, c ≠ '\n' := by
  unfold normalizeSql
  have h1 : ∀ c ∈ jsTrim (collapseWhitespace l), c ≠ '\n' :=
    fun c hc => collapseWhitespace_no_lf l c (jsTrim_subset _ hc)
  have h2 := spaceOperators_no_lf _ h1
  have h3 : ∀ c ∈ normalizeCommas opts (spaceOperators (jsTrim (collapseWhitespace l))),
      c ≠ '\n' :=
    wsAround_no_lf ',' (commaRepl opts) (by decide) (commaRepl_no_lf opts) _ h2
  have h4 := wsAround_no_lf '(' ['('] (by decide) (by decide) _ h3
  have h5 := wsAround_no_lf ')' [')', ' '] (by decide) (by decide) _ h4
  have h6 : ∀ c ∈ collapseWhitespace (normalizeCloseParen (normalizeOpenParen
      (normalizeCommas opts (spaceOperators (jsTrim (collapseWhitespace l)))))), c ≠ '\n' :=
    fun c hc => collapseWhitespace_no_lf _ c hc
  exact fixFunctionCalls_no_lf _ h6

theorem applyKeywordCase_no_lf (kc : Option String) (l : List Char)
    (hl : ∀ c ∈ l, c ≠ '\n') : ∀ c ∈ applyKeywordCase kc l, c ≠ '\n' := by
  unfold applyKeywordCase
  split
  · intro c hc
    refine scanReplaceF_chars_pres (kwMatcher strUpper) (fun c => c ≠ '\n') ?_
      l.length none l hl c hc
    intro prev w n r hm hw d hdr
    obtain ⟨k, _, _, hr⟩ := kwMatcher_spec strUpper prev w n r hm
    rw [hr] at hdr
    unfold strUpper at hdr
    rw [List.mem_map] at hdr
    obtain ⟨a, ha, rfl⟩ := hdr
    exact toUpperAscii_ne_lf a (hw a (List.take_subset _ _ ha))
  · split
    · intro c hc
      refine scanReplaceF_chars_pres (kwMatcher strLower) (fun c => c ≠ '\n') ?_
        l.length none l hl c hc
      intro prev w n r hm hw d hdr
      obtain ⟨k, _, _, hr⟩ := kwMatcher_spec strLower prev w n r hm
      rw [hr] at hdr
      unfold strLower at hdr
      rw [List.mem_map] at hdr
      obtain ⟨a, ha, rfl⟩ := hdr
      exact toLowerAscii_ne_lf a (hw a (List.take_subset _ _ ha))
    · exact hl

theorem recaseOn_no_lf (kc : Option String) (cl : List Char)
    (hl : '\n' ∉ cl) : '\n' ∉ recaseOn kc cl := by
  unfold recaseOn
  split
  · intro hc
    have := scanReplaceF_chars_pres
      (onMatcher (if kc = some "lower" then ['o', 'n'] else ['O', 'N']))
      (fun c => c ≠ '\n') ?_ cl.length none cl (fun c hcc hEq => hl (hEq ▸ hcc)) '\n' hc
    · exact this rfl
    · intro prev w n r hm hw d hdr
      obtain ⟨_, hr, _⟩ := onMatcher_spec _ prev w n r hm
      rw [hr] at hdr
      split at hdr
      · rcases List.mem_cons.mp hdr with h | h
        · subst h; decide
        · rw [List.mem_singleton] at h; subst h; decide
      · rcases List.mem_cons.mp hdr with h | h
        · subst h; decide
        · rw [List.mem_singleton] at h; subst h; decide
  · exact hl

theorem count_intercalate_lf (xs : List (List Char)) (hne : xs ≠ [])
    (h : ∀ x ∈ xs, '\n' ∉ x) :
    (List.intercalate ['\n'] xs).count '\n' + 1 = xs.length := by
  induction xs with
  | nil => cases hne rfl
  | cons x xs ih =>
      cases xs with
      | nil =>
          have hx : List.intercalate ['\n'] [x] = x := by
            unfold List.intercalate
            simp
          rw [hx, List.count_eq_zero.mpr (h x (List.mem_cons_self _ _))]
          rfl
      | cons y ys =>
          have key : List.intercalate ['\n'] (x :: y :: ys) =
              x ++ '\n' :: List.intercalate ['\n'] (y :: ys) := by
            unfold List.intercalate
            rw [List.intersperse_cons_cons]
            rw [List.flatten_cons, List.flatten_cons]
            simp
          rw [key, List.count_append,
            List.count_eq_zero.mpr (h x (List.mem_cons_self _ _))]
          have hih := ih (by simp) (fun z hz => h z (List.mem_cons_of_mem _ hz))
          simp only [List.count_cons_self, List.length_cons] at *
          omega

/-- Claim C8 (amended): for every input whose formatted output is
nonempty, the number of newline-separated output lines equals the
number of clause-opening fragments of the segmentation input (major
keyword parts plus JOIN-split fragments whose trimmed uppercased text
ends in `JOIN`, including identifiers that merely end in those letters)
plus one when content precedes the first opener. -/
theorem claim_C8_amended (sql : String) (opts : SqlFormatterOptions)
    (h : formatSqlString sql opts ≠ "") :
    countLines (formatSqlString sql opts) =
      clauseOpenerCount (applyKeywordCase opts.keywordCase (normalizeSql opts sql.data)) +
        leadingContentCount (applyKeywordCase opts.keywordCase (normalizeSql opts sql.data)) := by
  set s := applyKeywordCase opts.keywordCase (normalizeSql opts sql.data) with hs
  have hsnl : ∀ c ∈ s, c ≠ '\n' := by
    rw [hs]
    exact applyKeywordCase_no_lf _ _ (normalizeSql_no_lf opts sql.data)
  have hwf := clauseElems_wf s
  have hnl := clauseElems_no_lf s hsnl
  set st := (clauseElems s).foldl stepElem ([], []) with hst
  have hinv := foldl_stepElem_inv (clauseElems s) ([], []) hwf hnl (by simp) (Or.inl rfl)
  rw [← hst] at hinv
  have hseg : segmentClauses s = if st.2 ≠ [] then st.1 ++ [jsTrim st.2] else st.1 := by
    rw [segmentClauses_elems, ← hst]
  have hcount : stClauseCount st =
      (clauseElems s).countP (fun e => e.isOpener) +
        elemsLeadingContent (clauseElems s) := by
    rw [hst]
    exact foldl_stepElem_count_start _ (fun e he => (hwf e he).1)
  have hclT : ∀ x ∈ segmentClauses s, x ≠ [] ∧ '\n' ∉ x := by
    rw [hseg]
    by_cases h2 : st.2 = []
    · rw [if_neg (by simp [h2])]
      exact hinv.1
    · rw [if_pos h2]
      intro x hx
      rcases List.mem_append.mp hx with hx | hx
      · exact hinv.1 x hx
      · rw [List.mem_singleton] at hx
        subst hx
        rcases hinv.2 with h3 | ⟨⟨c, hc, hcw⟩, h3nl⟩
        · exact absurd h3 h2
        · exact ⟨jsTrim_ne_nil _ _ hc hcw, fun hmem => h3nl (jsTrim_subset _ hmem)⟩
  have hlen : (segmentClauses s).length = stClauseCount st := by
    rw [hseg]
    unfold stClauseCount
    by_cases h2 : st.2 = []
    · rw [if_neg (by simp [h2]), if_pos h2]
      simp
    · rw [if_pos h2, if_neg h2]
      simp
  have hfmt : formatSqlString sql opts =
      String.mk (assembleClauses opts.keywordCase (segmentClauses s)) := by
    rw [hs]
    rfl
  have hfilter : (segmentClauses s).filter (· ≠ []) = segmentClauses s := by
    rw [List.filter_eq_self]
    exact fun a ha => decide_eq_true (hclT a ha).1
  set mapped := ((segmentClauses s).filter (· ≠ [])).map (recaseOn opts.keywordCase)
    with hmap
  have hmlen : mapped.length = (segmentClauses s).length := by
    rw [hmap, hfilter, List.length_map]
  have hmnl : ∀ x ∈ mapped, '\n' ∉ x := by
    rw [hmap, hfilter]
    intro x hx
    rw [List.mem_map] at hx
    obtain ⟨y, hy, rfl⟩ := hx
    exact recaseOn_no_lf _ _ (hclT y hy).2
  have hmne : mapped ≠ [] := by
    intro h0
    rw [hmap, hfilter] at h0
    have hseg0 : segmentClauses s = [] := List.map_eq_nil_iff.mp h0
    apply h
    rw [hfmt]
    unfold assembleClauses
    rw [hfilter, hseg0]
    rfl
  have hcl : countLines (formatSqlString sql opts) = mapped.length := by
    rw [hfmt]
    unfold countLines assembleClauses
    rw [← hmap]
    exact count_intercalate_lf mapped hmne hmnl
  rw [hcl, hmlen, hlen, hcount]
  rfl

theorem claim_C8_amended_witness :
    countLines (formatSqlString "select ajoin" {}) =
      clauseOpenerCount (applyKeywordCase (SqlFormatterOptions.keywordCase {})
        (normalizeSql {} (String.data "select ajoin"))) +
        leadingContentCount (applyKeywordCase (SqlFormatterOptions.keywordCase {})
          (normalizeSql {} (String.data "select ajoin"))) :=
  claim_C8_amended "select ajoin" {} (by decide)
